import Mathlib

/-!
# Verification of `_repo_generator.py`

A shallow embedding of the Kodi add-on repository synchronizer script
`_repo_generator.py` together with proofs about its behaviour.

Python code is embedded as executable Lean functions: the filesystem state
each routine touches is passed explicitly, exceptions become `Except`,
and Python string/list idioms are modelled on character lists.  Each
definition names the routine of the script it embeds.
-/

namespace RepoGen

/-- Python `s.startswith(pre)`, on the character list of the string. -/
def pyStartsWith (s pre : String) : Bool := pre.toList.isPrefixOf s.toList

/-- Python `s.endswith(suf)`, on the character list of the string. -/
def pyEndsWith (s suf : String) : Bool := suf.toList.isSuffixOf s.toList

/-- Helper for Python `pat in s`: substring containment on character lists. -/
def charsContains (pat : List Char) : List Char → Bool
  | [] => pat.isPrefixOf []
  | c :: rest => pat.isPrefixOf (c :: rest) || charsContains pat rest

/-- Python `pat in s` for strings. -/
def pyContainsSub (s pat : String) : Bool := charsContains pat.toList s.toList

/-- Python `list.remove(a)`: drop the first occurrence of `a`.  (The script
only calls it on present elements, where no `ValueError` can arise.) -/
def pyRemoveFirst : List String → String → List String
  | [], _ => []
  | x :: xs, a => if x = a then xs else x :: pyRemoveFirst xs a

/-- A Python loop `for f in files: if p(f): files.remove(f)` (the zip
ignore-filter of `_create_zip`, lines 259-264).  The list iterator keeps an
index `k` that advances every step even when the element at `k` was just
removed, so the element sliding into position `k` is skipped.  `fuel` bounds
the iteration count; starting it at the initial length is exact, because `k`
grows by one per step while the length never grows, so the loop stops within
`initial length` steps. -/
def pyForRemoveGo (p : String → Bool) : Nat → List String → Nat → List String
  | 0, l, _ => l
  | fuel + 1, l, k =>
    match l.get? k with
    | none => l
    | some f =>
      if p f then pyForRemoveGo p fuel (pyRemoveFirst l f) (k + 1)
      else pyForRemoveGo p fuel l (k + 1)

/-- The whole mutating `for f in files` removal loop on a list. -/
def pyForRemove (p : String → Bool) (l : List String) : List String :=
  pyForRemoveGo p l.length l 0

/-! ## The manifest merge (`_generate_addons_file`, lines 314-374) -/

/-- A manifest `<addon>` element (equally, a parsed declaration root): its
`id` and `version` attributes as `Element.get` returns them (`none` when the
attribute is missing). -/
structure Entry where
  id : Option String
  version : Option String
deriving DecidableEq, Repr

/-- How `"...{}".format(x)` prints an attribute value: `None` becomes the
text `"None"`. -/
def pyFormat : Option String → String
  | none => "None"
  | some s => s

/-- Whether a manifest entry is matched by the xpath
`addon[@id='<pyFormat i>']` built at line 328/339. -/
def matchesId (i : Option String) (e : Entry) : Bool := e.id == some (pyFormat i)

/-- The single-quote character (character code 39). -/
def squote : Char := Char.ofNat 39

/-- `ElementTree.find` raises `SyntaxError: invalid predicate` when the id
interpolated into the xpath contains a single quote; that happens before any
manifest mutation and is caught by the per-add-on handler. -/
def xpathSafe (i : Option String) : Bool := !((pyFormat i).toList.contains squote)

/-- `_create_zip(addon_path, id, version)` (lines 237-281) as seen by the
merge loop: `os.path.join(self.zips_path, addon_id)` raises `TypeError` when
the id is `None`; otherwise the archive `"{id}-{version}.zip"` is requested
(built unless it already exists).  We record the requested pair
(id, version text). -/
def createZip (i v : Option String) : Except String (String × String) :=
  match i with
  | none => .error "TypeError: join() argument must be str, not NoneType"
  | some s => .ok (s, pyFormat v)

/-- One discovered add-on as the merge loop sees it: either the id/version
attributes of a declaration that parsed, or the exception message raised by
`ElementTree.parse` on it. -/
abbrev AddonSrc := Except String (Option String × Option String)

/-- The loop state of `_generate_addons_file`: the manifest children, the
`changed` flag, the archives requested so far, and the reported
"Excluding ..." messages. -/
structure MergeState where
  manifest : List Entry
  changed : Bool
  rebuilt : List (String × String)
  excluded : List String
deriving DecidableEq, Repr

/-- The body of the per-add-on loop of `_generate_addons_file`
(lines 330-359), including its surrounding try/except.  An existing entry
with a different version is removed and the fresh declaration inserted at
the same index (`eraseIdx`/`insertIdx` mirror `remove`/`insert`); a missing
entry is appended; an equal version is a no-op.  In the first two cases an
archive build is requested, whose `TypeError` for a missing id is caught by
the handler — after the manifest was already mutated. -/
def processAddon (st : MergeState) (a : AddonSrc) : MergeState :=
  match a with
  | .error msg => { st with excluded := st.excluded ++ [msg] }
  | .ok (i, v) =>
    if xpathSafe i then
      match st.manifest.find? (matchesId i) with
      | some e =>
        if e.version ≠ v then
          let idx := st.manifest.findIdx (matchesId i)
          let m := (st.manifest.eraseIdx idx).insertIdx idx ⟨i, v⟩
          match createZip i v with
          | .ok z => ⟨m, true, st.rebuilt ++ [z], st.excluded⟩
          | .error msg => ⟨m, true, st.rebuilt, st.excluded ++ [msg]⟩
        else st
      | none =>
        let m := st.manifest ++ [⟨i, v⟩]
        match createZip i v with
        | .ok z => ⟨m, true, st.rebuilt ++ [z], st.excluded⟩
        | .error msg => ⟨m, true, st.rebuilt, st.excluded ++ [msg]⟩
    else { st with excluded := st.excluded ++ ["SyntaxError: invalid predicate"] }

/-- The whole merge loop over the discovered add-on folders, starting from
the manifest read from disk (or the fresh empty one). -/
def mergeLoop (addons : List AddonSrc) (m0 : List Entry) : MergeState :=
  addons.foldl processAddon ⟨m0, false, [], []⟩

/-- Lexicographic comparison on code-point lists: exactly Python string
`<=`. -/
def charsLE : List Char → List Char → Bool
  | [], _ => true
  | _ :: _, [] => false
  | a :: as, b :: bs => if a = b then charsLE as bs else decide (a < b)

/-- The sort-key order of
`sorted(addons_root, key=lambda addon: addon.get('id'))` for two entries
that both carry an id (the `getD ""` default is only reachable through the
length-one case of `pySortedEntries`, where the sort does not compare). -/
def entryIdLE (a b : Entry) : Prop :=
  charsLE (a.id.getD "").toList (b.id.getD "").toList = true

instance : DecidableRel entryIdLE := fun _ _ => instDecidableEqBool _ _

/-- Python `sorted` with the id key (line 362): comparing a missing id
(`None`) with anything raises `TypeError`, and with two or more elements
every element is compared at least once, so any `None` key raises; otherwise
the result is the stable ascending reordering (Timsort), which any stable
sort — here insertion sort — produces identically. -/
def pySortedEntries (l : List Entry) : Except String (List Entry) :=
  if 2 ≤ l.length && l.any (fun e => e.id.isNone) then
    .error "TypeError: unorderable NoneType key"
  else .ok (l.insertionSort entryIdLE)

/-- The observable outcome of one `Generator` run past the merge stage. -/
structure RunResult where
  manifest : List Entry
  changed : Bool
  manifestWritten : Bool
  md5Attempted : Bool
  md5Written : Bool
  cleanupRan : Bool
  promotionRan : Bool
  indexRan : Bool
  rebuilt : List (String × String)
  excluded : List String
deriving DecidableEq, Repr

/-- `Generator.__init__` from `_generate_addons_file` on (lines 154-164
together with 361-374 and 499-514): if the merge changed anything, the
manifest is sorted (a `TypeError` there propagates and aborts the run) and
written — `writeOk` says whether `ElementTree.write` succeeds; only a
successful write makes `__init__` call `_generate_md5_file` (`md5Attempted`),
which itself succeeds iff `md5Ok`.  Cleanup, root-zip promotion and the
index rewrite then run unconditionally. -/
def generatorRun (addons : List AddonSrc) (m0 : List Entry)
    (writeOk md5Ok : Bool) : Except String RunResult :=
  let st := mergeLoop addons m0
  if st.changed then
    match pySortedEntries st.manifest with
    | .error e => .error e
    | .ok sortedM =>
      .ok ⟨sortedM, true, writeOk, writeOk, writeOk && md5Ok,
           true, true, true, st.rebuilt, st.excluded⟩
  else
    .ok ⟨st.manifest, false, false, false, false,
         true, true, true, st.rebuilt, st.excluded⟩

/-! ### The id order is total and transitive -/

theorem charsLE_total (a b : List Char) : charsLE a b = true ∨ charsLE b a = true := by
  induction a generalizing b with
  | nil => exact Or.inl rfl
  | cons x xs ih =>
    cases b with
    | nil => exact Or.inr rfl
    | cons y ys =>
      by_cases hxy : x = y
      · subst hxy
        simpa [charsLE] using ih ys
      · rcases lt_or_gt_of_ne hxy with h | h
        · exact Or.inl (by simp [charsLE, hxy, h])
        · exact Or.inr (by simp [charsLE, Ne.symm hxy, h])

theorem charsLE_trans {a b c : List Char} (h1 : charsLE a b = true)
    (h2 : charsLE b c = true) : charsLE a c = true := by
  induction a generalizing b c with
  | nil => rfl
  | cons x xs ih =>
    cases b with
    | nil => simp [charsLE] at h1
    | cons y ys =>
      cases c with
      | nil => simp [charsLE] at h2
      | cons z zs =>
        by_cases hxy : x = y <;> by_cases hyz : y = z
        · subst hxy; subst hyz
          simp only [charsLE, if_pos rfl] at h1 h2 ⊢
          exact ih h1 h2
        · subst hxy
          simp only [charsLE, if_pos rfl] at h1
          simpa [charsLE, hyz] using h2
        · subst hyz
          simp only [charsLE, if_pos rfl] at h2
          simpa [charsLE, hxy] using h1
        · simp only [charsLE, if_neg hxy, decide_eq_true_eq] at h1
          simp only [charsLE, if_neg hyz, decide_eq_true_eq] at h2
          have hxz : x < z := lt_trans h1 h2
          simp [charsLE, ne_of_lt hxz, hxz]

instance : IsTotal Entry entryIdLE :=
  ⟨fun a b => charsLE_total (a.id.getD "").toList (b.id.getD "").toList⟩

instance : IsTrans Entry entryIdLE :=
  ⟨fun _ _ _ h1 h2 => charsLE_trans h1 h2⟩

/-! ### Supporting lemmas about the merge loop -/

/-- A well-formed manifest: every entry carries an id and the ids are
pairwise distinct. -/
def manifestWF (m : List Entry) : Prop :=
  (∀ e ∈ m, e.id ≠ none) ∧ (m.map Entry.id).Nodup

instance (m : List Entry) : Decidable (manifestWF m) := by
  unfold manifestWF; infer_instance

theorem find?_eq_of_mem_nodup {m : List Entry} (hnd : (m.map Entry.id).Nodup)
    {e : Entry} (he : e ∈ m) {s : String} (hid : e.id = some s) :
    m.find? (matchesId (some s)) = some e := by
  induction m with
  | nil => cases he
  | cons x xs ih =>
    rw [List.map_cons, List.nodup_cons] at hnd
    rcases List.mem_cons.mp he with rfl | hmem
    · exact List.find?_cons_of_pos _ (by simp [matchesId, pyFormat, hid])
    · have hx : matchesId (some s) x = false := by
        by_contra hcon
        have hx' : x.id = some s := by
          simpa [matchesId, pyFormat] using eq_true_of_ne_false hcon
        exact hnd.1 (by rw [hx', ← hid]; exact List.mem_map_of_mem Entry.id hmem)
      rw [List.find?_cons_of_neg _ (by simp [hx]), ih hnd.2 hmem]

theorem set_eq_self_of_getElem {α : Type} {m : List α} {idx : Nat} {a : α}
    (h : idx < m.length) (ha : m[idx] = a) : m.set idx a = m := by
  induction m generalizing idx with
  | nil => simp at h
  | cons x xs ih =>
    cases idx with
    | zero => simpa using ha.symm
    | succ n =>
      simp only [List.set_cons_succ, List.cons.injEq, true_and]
      exact ih (by simpa using h) (by simpa using ha)

theorem eraseIdx_insertIdx_eq_set (m : List Entry) (idx : Nat) (x : Entry)
    (h : idx < m.length) : (m.eraseIdx idx).insertIdx idx x = m.set idx x := by
  induction m generalizing idx with
  | nil => simp at h
  | cons a l ih =>
    cases idx with
    | zero => rfl
    | succ n =>
      rw [List.eraseIdx_cons_succ, List.insertIdx_succ_cons, List.set_cons_succ,
        ih n (by simpa using h)]

theorem matchesId_id {i : String} {e : Entry} (h : matchesId (some i) e = true) :
    e.id = some i := by
  simpa [matchesId, pyFormat] using h

theorem processAddon_cases (m : List Entry) (ch : Bool) (rb : List (String × String))
    (ex : List String) (i v : String) (hq : xpathSafe (some i) = true) :
    (m.find? (matchesId (some i)) = none →
        processAddon ⟨m, ch, rb, ex⟩ (.ok (some i, some v))
          = ⟨m ++ [⟨some i, some v⟩], true, rb ++ [(i, v)], ex⟩)
    ∧ (∀ e, m.find? (matchesId (some i)) = some e → e.version ≠ some v →
        processAddon ⟨m, ch, rb, ex⟩ (.ok (some i, some v))
          = ⟨m.set (m.findIdx (matchesId (some i))) ⟨some i, some v⟩, true,
             rb ++ [(i, v)], ex⟩)
    ∧ (∀ e, m.find? (matchesId (some i)) = some e → e.version = some v →
        processAddon ⟨m, ch, rb, ex⟩ (.ok (some i, some v)) = ⟨m, ch, rb, ex⟩) := by
  refine ⟨fun hnone => ?_, fun e hfind hne => ?_, fun e hfind heq => ?_⟩
  · simp only [processAddon, hq, if_true, hnone]
    rfl
  · have hlt : m.findIdx (matchesId (some i)) < m.length :=
      List.findIdx_lt_length_of_exists
        ⟨e, List.mem_of_find?_eq_some hfind, List.find?_some hfind⟩
    simp only [processAddon, hq, if_true, hfind]
    rw [if_pos hne]
    simp only [createZip, pyFormat]
    rw [eraseIdx_insertIdx_eq_set m _ _ hlt]
  · simp only [processAddon, hq, if_true, hfind]
    rw [if_neg (by simp [heq])]

theorem processAddon_quotedId (st : MergeState) (i v : Option String)
    (hq : xpathSafe i = false) :
    processAddon st (.ok (i, v))
      = { st with excluded := st.excluded ++ ["SyntaxError: invalid predicate"] } := by
  simp [processAddon, hq]

theorem processAddon_parse_error (st : MergeState) (msg : String) :
    processAddon st (.error msg) = { st with excluded := st.excluded ++ [msg] } := rfl

theorem step_manifest_WF (st : MergeState) (i v : String)
    (hWF : manifestWF st.manifest) :
    manifestWF (processAddon st (.ok (some i, some v))).manifest := by
  obtain ⟨m, ch, rb, ex⟩ := st
  by_cases hq : xpathSafe (some i) = true
  · obtain ⟨hnone, hrepl, hnoop⟩ := processAddon_cases m ch rb ex i v hq
    match hfind : m.find? (matchesId (some i)) with
    | none =>
      rw [hnone hfind]
      have hnotin : some i ∉ m.map Entry.id := by
        intro hmem
        rcases List.mem_map.mp hmem with ⟨e, he, hid⟩
        exact absurd (List.find?_eq_none.mp hfind e he)
          (by simp [matchesId, pyFormat, hid])
      refine ⟨fun e he => ?_, ?_⟩
      · rcases List.mem_append.mp he with h | h
        · exact hWF.1 e h
        · simp only [List.mem_singleton] at h
          simp [h]
      · simp only [List.map_append, List.map_cons, List.map_nil]
        exact hWF.2.append (List.nodup_singleton _)
          (List.disjoint_singleton.mpr hnotin)
    | some e =>
      by_cases hv : e.version = some v
      · rw [hnoop e hfind hv]; exact hWF
      · rw [hrepl e hfind hv]
        have hlt : m.findIdx (matchesId (some i)) < m.length :=
          List.findIdx_lt_length_of_exists
            ⟨e, List.mem_of_find?_eq_some hfind, List.find?_some hfind⟩
        have hidx : m[m.findIdx (matchesId (some i))].id = some i :=
          matchesId_id (List.findIdx_getElem (w := hlt))
        have hmap : (m.set (m.findIdx (matchesId (some i))) ⟨some i, some v⟩).map Entry.id
            = m.map Entry.id := by
          rw [List.map_set]
          exact set_eq_self_of_getElem (m := m.map Entry.id)
            (by simpa using hlt) (by simp [hidx])
        refine ⟨fun x hx => ?_, ?_⟩
        · rcases List.mem_or_eq_of_mem_set hx with h | h
          · exact hWF.1 x h
          · simp [h]
        · rw [hmap]; exact hWF.2
  · rw [processAddon_quotedId _ _ _ (by simpa using hq)]
    exact hWF

theorem step_establish (st : MergeState) (i v : String)
    (hq : xpathSafe (some i) = true) :
    Entry.mk (some i) (some v) ∈ (processAddon st (.ok (some i, some v))).manifest := by
  obtain ⟨m, ch, rb, ex⟩ := st
  obtain ⟨hnone, hrepl, hnoop⟩ := processAddon_cases m ch rb ex i v hq
  match hfind : m.find? (matchesId (some i)) with
  | none =>
    rw [hnone hfind]
    simp
  | some e =>
    by_cases hv : e.version = some v
    · rw [hnoop e hfind hv]
      have hid : e.id = some i := matchesId_id (List.find?_some hfind)
      have : e = ⟨some i, some v⟩ := by
        cases e; simp_all
      simpa [← this] using List.mem_of_find?_eq_some hfind
    · rw [hrepl e hfind hv]
      have hlt : m.findIdx (matchesId (some i)) < m.length :=
        List.findIdx_lt_length_of_exists
          ⟨e, List.mem_of_find?_eq_some hfind, List.find?_some hfind⟩
      exact List.mem_iff_getElem.mpr
        ⟨m.findIdx (matchesId (some i)), by simpa using hlt,
         List.getElem_set_self (by simpa using hlt)⟩

theorem step_preserve (st : MergeState) (i v : String)
    (e : Entry) (s : String) (he : e ∈ st.manifest) (hid : e.id = some s)
    (hne : i ≠ s) :
    e ∈ (processAddon st (.ok (some i, some v))).manifest := by
  obtain ⟨m, ch, rb, ex⟩ := st
  replace he : e ∈ m := he
  by_cases hq : xpathSafe (some i) = true
  · obtain ⟨hnone, hrepl, hnoop⟩ := processAddon_cases m ch rb ex i v hq
    match hfind : m.find? (matchesId (some i)) with
    | none =>
      rw [hnone hfind]
      exact List.mem_append.mpr (Or.inl he)
    | some f =>
      by_cases hv : f.version = some v
      · rw [hnoop f hfind hv]
        exact he
      · rw [hrepl f hfind hv]
        have hlt : m.findIdx (matchesId (some i)) < m.length :=
          List.findIdx_lt_length_of_exists
            ⟨f, List.mem_of_find?_eq_some hfind, List.find?_some hfind⟩
        have hidx : m[m.findIdx (matchesId (some i))].id = some i :=
          matchesId_id (List.findIdx_getElem (w := hlt))
        rcases List.mem_iff_getElem.mp he with ⟨j, hj, hget⟩
        have hji : j ≠ m.findIdx (matchesId (some i)) := by
          intro hcon
          subst hcon
          rw [hget, hid] at hidx
          exact hne (Option.some_injective _ hidx).symm
        exact List.mem_iff_getElem.mpr
          ⟨j, by simpa using hj,
           by rw [List.getElem_set_ne (Ne.symm hji)]; exact hget⟩
  · rw [processAddon_quotedId _ _ _ (by simpa using hq)]
    exact he

theorem fold_preserve (addons : List (String × String)) :
    ∀ (st : MergeState) (e : Entry) (s : String), e ∈ st.manifest → e.id = some s →
    (∀ p ∈ addons, p.1 ≠ s) →
    e ∈ ((addons.map fun p => Except.ok (some p.1, some p.2)).foldl
          processAddon st).manifest := by
  induction addons with
  | nil => exact fun st e s he _ _ => he
  | cons p rest ih =>
    intro st e s he hid hne
    simp only [List.map_cons, List.foldl_cons]
    exact ih _ e s (step_preserve st p.1 p.2 e s he hid (hne p (by simp))) hid
      (fun q hq => hne q (by simp [hq]))

theorem fold_WF (addons : List (String × String)) :
    ∀ st : MergeState, manifestWF st.manifest →
    manifestWF ((addons.map fun p => Except.ok (some p.1, some p.2)).foldl
      processAddon st).manifest := by
  induction addons with
  | nil => exact fun _ h => h
  | cons p rest ih =>
    intro st h
    simp only [List.map_cons, List.foldl_cons]
    exact ih _ (step_manifest_WF st p.1 p.2 h)

theorem fold_establish (addons : List (String × String)) :
    ∀ st : MergeState, manifestWF st.manifest →
    (addons.map Prod.fst).Nodup →
    (∀ p ∈ addons, xpathSafe (some p.1) = true) →
    ∀ p ∈ addons,
      Entry.mk (some p.1) (some p.2) ∈
        ((addons.map fun q => Except.ok (some q.1, some q.2)).foldl
          processAddon st).manifest := by
  induction addons with
  | nil => intro st _ _ _ p hp; cases hp
  | cons q rest ih =>
    intro st hWF hnd hq p hp
    simp only [List.map_cons, List.foldl_cons]
    rw [List.map_cons, List.nodup_cons] at hnd
    have hnd' : q.1 ∉ List.map Prod.fst rest ∧ (List.map Prod.fst rest).Nodup := hnd
    rcases List.mem_cons.mp hp with rfl | hmem
    · have h1 := step_establish st p.1 p.2 (hq p (by simp))
      have hne : ∀ r ∈ rest, r.1 ≠ p.1 := fun r hr hcon =>
        hnd'.1 (hcon ▸ List.mem_map_of_mem Prod.fst hr)
      exact fold_preserve rest _ _ p.1 h1 rfl hne
    · exact ih _ (step_manifest_WF st q.1 q.2 hWF) hnd'.2
        (fun r hr => hq r (by simp [hr])) p hmem

theorem processAddon_matched_noop (st : MergeState) (i v : String)
    (hq : xpathSafe (some i) = true)
    (hfind : st.manifest.find? (matchesId (some i)) = some ⟨some i, some v⟩) :
    processAddon st (.ok (some i, some v)) = st := by
  obtain ⟨m, ch, rb, ex⟩ := st
  replace hfind : m.find? (matchesId (some i)) = some ⟨some i, some v⟩ := hfind
  exact (processAddon_cases m ch rb ex i v hq).2.2 _ hfind rfl

theorem foldl_noop (l : List AddonSrc) (st : MergeState)
    (h : ∀ a ∈ l, processAddon st a = st) : l.foldl processAddon st = st := by
  induction l with
  | nil => rfl
  | cons a rest ih =>
    rw [List.foldl_cons, h a (by simp)]
    exact ih (fun b hb => h b (by simp [hb]))

/-- **C1**: on a well-formed release tree (every declaration parses, ids
unique and xpath-clean) and a well-formed on-disk manifest, a successful
run followed immediately by a second run over the unchanged tree makes the
second run a pure no-op: every discovered add-on's version matches its
manifest entry, the `changed` flag stays false, no manifest write, no
checksum generation and no archive request happen, and the manifest content
is untouched. -/
theorem second_run_is_noop (addons : List (String × String)) (m0 : List Entry)
    (md5Ok md5Ok2 : Bool)
    (hA : (addons.map Prod.fst).Nodup)
    (hQ : ∀ p ∈ addons, xpathSafe (some p.1) = true)
    (hM : manifestWF m0) :
    ∃ r1 r2 : RunResult,
      generatorRun (addons.map fun p => Except.ok (some p.1, some p.2)) m0 true md5Ok
        = Except.ok r1
      ∧ generatorRun (addons.map fun p => Except.ok (some p.1, some p.2)) r1.manifest
          true md5Ok2 = Except.ok r2
      ∧ (∀ p ∈ addons,
          r1.manifest.find? (matchesId (some p.1)) = some ⟨some p.1, some p.2⟩)
      ∧ r2.changed = false ∧ r2.manifestWritten = false ∧ r2.md5Attempted = false
      ∧ r2.md5Written = false ∧ r2.rebuilt = [] ∧ r2.manifest = r1.manifest := by
  have hWFst : manifestWF
      (mergeLoop (addons.map fun p => Except.ok (some p.1, some p.2)) m0).manifest :=
    fold_WF addons ⟨m0, false, [], []⟩ hM
  have hEst : ∀ p ∈ addons, Entry.mk (some p.1) (some p.2) ∈
      (mergeLoop (addons.map fun p => Except.ok (some p.1, some p.2)) m0).manifest :=
    fold_establish addons ⟨m0, false, [], []⟩ hM hA hQ
  obtain ⟨r1, hr1, hWF1, hmem1⟩ :
      ∃ r1 : RunResult,
        generatorRun (addons.map fun p => Except.ok (some p.1, some p.2)) m0 true md5Ok
          = Except.ok r1
        ∧ manifestWF r1.manifest
        ∧ ∀ p ∈ addons, Entry.mk (some p.1) (some p.2) ∈ r1.manifest := by
    cases hch : (mergeLoop (addons.map fun p => Except.ok (some p.1, some p.2))
        m0).changed with
    | false =>
      refine ⟨⟨(mergeLoop (addons.map fun p => Except.ok (some p.1, some p.2))
          m0).manifest, false, false, false, false, true, true, true,
          (mergeLoop (addons.map fun p => Except.ok (some p.1, some p.2)) m0).rebuilt,
          (mergeLoop (addons.map fun p => Except.ok (some p.1, some p.2))
            m0).excluded⟩, ?_, hWFst, hEst⟩
      simp [generatorRun, hch]
    | true =>
      have hany : ((mergeLoop (addons.map fun p => Except.ok (some p.1, some p.2))
          m0).manifest.any fun e => e.id.isNone) = false :=
        List.any_eq_false.mpr fun e he => by
          simpa [Option.isNone_iff_eq_none] using hWFst.1 e he
      have hsorted : pySortedEntries
          (mergeLoop (addons.map fun p => Except.ok (some p.1, some p.2)) m0).manifest
          = Except.ok ((mergeLoop (addons.map fun p => Except.ok (some p.1, some p.2))
              m0).manifest.insertionSort entryIdLE) := by
        unfold pySortedEntries
        rw [hany]
        simp
      have hperm := List.perm_insertionSort entryIdLE
        (mergeLoop (addons.map fun p => Except.ok (some p.1, some p.2)) m0).manifest
      refine ⟨⟨(mergeLoop (addons.map fun p => Except.ok (some p.1, some p.2))
          m0).manifest.insertionSort entryIdLE, true, true, true, md5Ok,
          true, true, true,
          (mergeLoop (addons.map fun p => Except.ok (some p.1, some p.2)) m0).rebuilt,
          (mergeLoop (addons.map fun p => Except.ok (some p.1, some p.2))
            m0).excluded⟩, ?_,
        ⟨fun e he => hWFst.1 e (hperm.mem_iff.mp he),
          ((hperm.map Entry.id).nodup_iff).mpr hWFst.2⟩,
        fun p hp => hperm.mem_iff.mpr (hEst p hp)⟩
      simp [generatorRun, hch, hsorted]
  have find1 : ∀ p ∈ addons,
      r1.manifest.find? (matchesId (some p.1)) = some ⟨some p.1, some p.2⟩ :=
    fun p hp => find?_eq_of_mem_nodup hWF1.2 (hmem1 p hp) rfl
  have hloop2 : mergeLoop (addons.map fun p => Except.ok (some p.1, some p.2))
      r1.manifest = ⟨r1.manifest, false, [], []⟩ := by
    apply foldl_noop
    intro a ha
    rcases List.mem_map.mp ha with ⟨p, hp, rfl⟩
    exact processAddon_matched_noop _ p.1 p.2 (hQ p hp) (find1 p hp)
  refine ⟨r1, ⟨r1.manifest, false, false, false, false, true, true, true, [], []⟩,
    hr1, ?_, find1, rfl, rfl, rfl, rfl, rfl, rfl⟩
  simp [generatorRun, hloop2]

/-- Witness for `second_run_is_noop`: one add-on, empty initial manifest. -/
theorem second_run_is_noop_witness :
    ([("plugin.a", "1.0")].map Prod.fst).Nodup
    ∧ (∀ p ∈ [("plugin.a", "1.0")], xpathSafe (some p.1) = true)
    ∧ manifestWF []
    ∧ ∃ r1 r2 : RunResult,
      generatorRun ([("plugin.a", "1.0")].map fun p => Except.ok (some p.1, some p.2))
        [] true true = Except.ok r1
      ∧ generatorRun ([("plugin.a", "1.0")].map fun p => Except.ok (some p.1, some p.2))
          r1.manifest true true = Except.ok r2
      ∧ (∀ p ∈ [("plugin.a", "1.0")],
          r1.manifest.find? (matchesId (some p.1)) = some ⟨some p.1, some p.2⟩)
      ∧ r2.changed = false ∧ r2.manifestWritten = false ∧ r2.md5Attempted = false
      ∧ r2.md5Written = false ∧ r2.rebuilt = [] ∧ r2.manifest = r1.manifest :=
  ⟨by decide, by decide, by decide,
    second_run_is_noop [("plugin.a", "1.0")] [] true true
      (by decide) (by decide) (by decide)⟩

/-- **C3**: on any run that completes with `changed = true` (at least one
entry inserted or replaced), the written manifest is the whole merged
manifest re-sorted ascending by id, the checksum step is attempted iff the
manifest write succeeded, and cleanup and promotion execute even when the
manifest write fails. -/
theorem changed_run_sorts_and_gates_checksum (addons : List AddonSrc)
    (m0 : List Entry) (writeOk md5Ok : Bool) (r : RunResult)
    (h : generatorRun addons m0 writeOk md5Ok = Except.ok r)
    (hch : r.changed = true) :
    List.Sorted entryIdLE r.manifest
    ∧ r.manifest.Perm (mergeLoop addons m0).manifest
    ∧ r.md5Attempted = r.manifestWritten
    ∧ r.manifestWritten = writeOk
    ∧ (writeOk = false → r.md5Attempted = false)
    ∧ r.cleanupRan = true ∧ r.promotionRan = true := by
  simp only [generatorRun] at h
  cases hc : (mergeLoop addons m0).changed with
  | false =>
    rw [hc] at h
    simp only [Bool.false_eq_true, if_false, Except.ok.injEq] at h
    rw [← h] at hch
    cases hch
  | true =>
    rw [hc] at h
    simp only [if_true] at h
    cases hsort : pySortedEntries (mergeLoop addons m0).manifest with
    | error e => rw [hsort] at h; cases h
    | ok sortedM =>
      rw [hsort] at h
      simp only [Except.ok.injEq] at h
      have hs : sortedM = (mergeLoop addons m0).manifest.insertionSort entryIdLE := by
        unfold pySortedEntries at hsort
        split at hsort
        · cases hsort
        · exact (Except.ok.injEq _ _).mp hsort.symm
      subst h
      refine ⟨?_, ?_, rfl, rfl, fun hw => by simp [hw], rfl, rfl⟩
      · rw [hs]
        exact List.sorted_insertionSort entryIdLE _
      · rw [hs]
        exact List.perm_insertionSort entryIdLE _

/-- Witness for `changed_run_sorts_and_gates_checksum`: two new add-ons,
manifest write failing, so the checksum step is skipped while cleanup and
promotion still run. -/
theorem changed_run_sorts_and_gates_checksum_witness :
    List.Sorted entryIdLE
      [Entry.mk (some "plugin.a") (some "2.0"), Entry.mk (some "plugin.b") (some "1.0")]
    ∧ List.Perm
        [Entry.mk (some "plugin.a") (some "2.0"), Entry.mk (some "plugin.b") (some "1.0")]
        (mergeLoop [Except.ok (some "plugin.b", some "1.0"),
          Except.ok (some "plugin.a", some "2.0")] []).manifest
    ∧ (false : Bool) = false
    ∧ (false : Bool) = false
    ∧ ((false : Bool) = false → (false : Bool) = false)
    ∧ (true : Bool) = true ∧ (true : Bool) = true := by
  have h := changed_run_sorts_and_gates_checksum
    [Except.ok (some "plugin.b", some "1.0"), Except.ok (some "plugin.a", some "2.0")]
    [] false true
    ⟨[⟨some "plugin.a", some "2.0"⟩, ⟨some "plugin.b", some "1.0"⟩], true, false,
     false, false, true, true, true, [("plugin.b", "1.0"), ("plugin.a", "2.0")], []⟩
    (by rfl) (by rfl)
  exact h

/-- **C4**: for a successfully parsed add-on the merge applies exactly the
three-way case analysis: no entry with its id — append the declaration and
request an archive build; an entry with a different version — replace it at
its current position (`set` at the found index) and request a build; an
entry with the same version — leave the whole state untouched. -/
theorem merge_case_analysis (m : List Entry) (ch : Bool)
    (rb : List (String × String)) (ex : List String) (i v : String)
    (hq : xpathSafe (some i) = true) :
    (m.find? (matchesId (some i)) = none →
        processAddon ⟨m, ch, rb, ex⟩ (.ok (some i, some v))
          = ⟨m ++ [⟨some i, some v⟩], true, rb ++ [(i, v)], ex⟩)
    ∧ (∀ e, m.find? (matchesId (some i)) = some e → e.version ≠ some v →
        processAddon ⟨m, ch, rb, ex⟩ (.ok (some i, some v))
          = ⟨m.set (m.findIdx (matchesId (some i))) ⟨some i, some v⟩, true,
             rb ++ [(i, v)], ex⟩)
    ∧ (∀ e, m.find? (matchesId (some i)) = some e → e.version = some v →
        processAddon ⟨m, ch, rb, ex⟩ (.ok (some i, some v)) = ⟨m, ch, rb, ex⟩) :=
  processAddon_cases m ch rb ex i v hq

/-- Witness for `merge_case_analysis`: all three cases exercised on concrete
one-entry manifests. -/
theorem merge_case_analysis_witness :
    processAddon ⟨[⟨some "plugin.a", some "1.0"⟩], false, [], []⟩
        (.ok (some "plugin.b", some "2.0"))
      = ⟨[⟨some "plugin.a", some "1.0"⟩, ⟨some "plugin.b", some "2.0"⟩], true,
         [("plugin.b", "2.0")], []⟩
    ∧ processAddon ⟨[⟨some "plugin.a", some "1.0"⟩], false, [], []⟩
        (.ok (some "plugin.a", some "2.0"))
      = ⟨[⟨some "plugin.a", some "2.0"⟩], true, [("plugin.a", "2.0")], []⟩
    ∧ processAddon ⟨[⟨some "plugin.a", some "1.0"⟩], false, [], []⟩
        (.ok (some "plugin.a", some "1.0"))
      = ⟨[⟨some "plugin.a", some "1.0"⟩], false, [], []⟩ := by
  refine ⟨?_, ?_, ?_⟩
  · exact ((merge_case_analysis [⟨some "plugin.a", some "1.0"⟩] false [] []
      "plugin.b" "2.0" (by decide)).1 (by decide)).trans (by decide)
  · exact ((merge_case_analysis [⟨some "plugin.a", some "1.0"⟩] false [] []
      "plugin.a" "2.0" (by decide)).2.1 ⟨some "plugin.a", some "1.0"⟩
      (by decide) (by decide)).trans (by decide)
  · exact (merge_case_analysis [⟨some "plugin.a", some "1.0"⟩] false [] []
      "plugin.a" "1.0" (by decide)).2.2 ⟨some "plugin.a", some "1.0"⟩
      (by decide) (by decide)

/-- **C8** fails on the code: a declaration that parses but lacks an `id`
attribute is appended to the manifest before `_create_zip` raises (the
`TypeError` is caught and reported), so the add-on is not skipped; and once
a second, well-formed add-on makes the manifest hold both a `None` id and a
string id, the final `sorted(..., key=...get('id'))` raises an uncaught
`TypeError`, aborting the run before cleanup and promotion.  A genuine
parse failure, by contrast, is skipped non-fatally exactly as claimed. -/
theorem missing_id_aborts_run :
    (mergeLoop [Except.ok (none, some "1.0"),
        Except.ok (some "plugin.b", some "1.0")] []).manifest
      = [⟨none, some "1.0"⟩, ⟨some "plugin.b", some "1.0"⟩]
    ∧ (mergeLoop [Except.ok (none, some "1.0"),
        Except.ok (some "plugin.b", some "1.0")] []).excluded
      = ["TypeError: join() argument must be str, not NoneType"]
    ∧ generatorRun [Except.ok (none, some "1.0"),
        Except.ok (some "plugin.b", some "1.0")] [] true true
      = Except.error "TypeError: unorderable NoneType key"
    ∧ generatorRun [Except.error "ParseError: not well-formed"] [] true true
      = Except.ok ⟨[], false, false, false, false, true, true, true, [],
          ["ParseError: not well-formed"]⟩ :=
  ⟨rfl, rfl, rfl, rfl⟩

/-! ## The archive ignore list (`_create_zip`, lines 237-281) -/

/-- The `IGNORE` constant (lines 17-25). -/
def IGNORE : List String :=
  [".git", ".github", ".gitignore", ".DS_Store", "thumbs.db", ".idea", "venv"]

mutual
inductive FsTree : Type where
  | dir : String → FsForest → FsTree
inductive FsForest : Type where
  | nil : FsForest
  | file : String → FsForest → FsForest
  | sub : FsTree → FsForest → FsForest
end

def FsTree.name : FsTree → String
  | .dir n _ => n

/-- The `filenames` component `os.walk` reports for a directory, in scandir
order. -/
def FsForest.fileNames : FsForest → List String
  | .nil => []
  | .file f rest => f :: rest.fileNames
  | .sub _ rest => rest.fileNames

/-- The `dirnames` component `os.walk` reports for a directory, in scandir
order. -/
def FsForest.dirNames : FsForest → List String
  | .nil => []
  | .file _ rest => rest.dirNames
  | .sub t rest => t.name :: rest.dirNames

/-- The in-place pruning done for one walked directory (lines 252-264): for
each ignore entry in order, the subdirectory of exactly that name is removed
from `dirs` (pruning the descent), then the mutating
`for f in files: if f.startswith(i): files.remove(f)` loop runs. -/
def applyIgnore (dirs files : List String) : List String × List String :=
  IGNORE.foldl
    (fun df i =>
      (if i ∈ df.1 then pyRemoveFirst df.1 i else df.1,
       pyForRemove (fun f => pyStartsWith f i) df.2))
    (dirs, files)

mutual
/-- `os.walk(addon_folder)` combined with the `zip.write` calls
(lines 251-271): the list of entry names the archive receives, as path
component lists relative to the parent of the add-on directory.  Per
directory: prune and filter via `applyIgnore`, emit this directory's
surviving files, then descend into the surviving subdirectories in order. -/
def walkZip : FsTree → List (List String)
  | .dir name children =>
    let p := applyIgnore children.dirNames children.fileNames
    (p.2.map fun f => [name, f])
      ++ (walkForest children p.1).map (fun e => name :: e)
/-- Descent over one directory's children, entering only the subdirectories
whose names survived the prune (`kept`). -/
def walkForest : FsForest → List String → List (List String)
  | .nil, _ => []
  | .file _ rest, kept => walkForest rest kept
  | .sub t rest, kept =>
    (if t.name ∈ kept then walkZip t else []) ++ walkForest rest kept
end

/-- The failing input for the ignore-list claim: an add-on directory with
two adjacent files both starting with the ignore prefix ".git". -/
def bugTree : FsTree :=
  .dir "plugin.test"
    (.file ".gitignore" (.file ".gitattributes" (.file "addon.xml" .nil)))

/-- **C2** fails on the code: `files.remove(f)` inside `for f in files`
skips the element that slides into the removed slot, so of two adjacent
files both matching an ignore prefix the second one — here
`.gitattributes`, which starts with the ignore entry ".git" — survives into
the archive entry list.  Directory pruning (exact-name match) and
non-adjacent matches behave as claimed, as the second evaluation shows. -/
theorem zip_contains_ignored_file :
    walkZip bugTree
      = [["plugin.test", ".gitattributes"], ["plugin.test", "addon.xml"]]
    ∧ pyStartsWith ".gitattributes" ".git" = true
    ∧ ".git" ∈ IGNORE
    ∧ walkZip (.dir "plugin.test"
        (.file ".gitignore" (.sub (.dir ".git" (.file "config" .nil))
          (.file "addon.xml" .nil))))
      = [["plugin.test", "addon.xml"]] :=
  ⟨rfl, rfl, by decide, rfl⟩

/-! ## `_remove_binaries` (lines 166-203) -/

/-- Python `s.lower()`, on the character list. -/
def pyLower (s : String) : List Char := s.toList.map Char.toLower

/-- A file `_remove_binaries` deletes:
`fn.lower().endswith("pyo") or fn.lower().endswith("pyc")` — note no dot is
required. -/
def isCompiled (fn : String) : Bool :=
  "pyo".toList.isSuffixOf (pyLower fn) || "pyc".toList.isSuffixOf (pyLower fn)

/-- A directory `_remove_binaries` deletes: `"pycache" in dir.lower()`. -/
def isPycacheDir (dn : String) : Bool := charsContains "pycache".toList (pyLower dn)

mutual
/-- `_remove_binaries` over one directory tree: a compiled file whose
`os.remove` succeeds (`fOk`) disappears; a cache directory whose
`shutil.rmtree` succeeds (`dOk`) disappears with all its contents —
`os.walk` then silently fails to descend into it — while on a failed
removal the walk still descends into the kept entry.  Failures are only
reported; nothing propagates. -/
def removeBinariesT (fOk dOk : String → Bool) : FsTree → FsTree
  | .dir n children => .dir n (removeBinariesF fOk dOk children)
def removeBinariesF (fOk dOk : String → Bool) : FsForest → FsForest
  | .nil => .nil
  | .file f rest =>
    if isCompiled f && fOk f then removeBinariesF fOk dOk rest
    else .file f (removeBinariesF fOk dOk rest)
  | .sub t rest =>
    if isPycacheDir t.name && dOk t.name then removeBinariesF fOk dOk rest
    else .sub (removeBinariesT fOk dOk t) (removeBinariesF fOk dOk rest)
end

mutual
/-- No compiled file and no cache directory anywhere in the tree. -/
def cleanTree : FsTree → Bool
  | .dir _ children => cleanForest children
def cleanForest : FsForest → Bool
  | .nil => true
  | .file f rest => !isCompiled f && cleanForest rest
  | .sub t rest => !isPycacheDir t.name && cleanTree t && cleanForest rest
end

/-- `Generator.__init__` (lines 141-164): `_remove_binaries` runs before
everything else, and the merge/write/checksum pipeline then works on
whatever discovery (`_get_addon_folders` plus parsing, abstracted as
`addonsOf`) finds in the already-cleaned tree. -/
def generatorInit (tree : FsTree) (fOk dOk : String → Bool)
    (addonsOf : FsTree → List AddonSrc) (m0 : List Entry)
    (writeOk md5Ok : Bool) : FsTree × Except String RunResult :=
  let cleaned := removeBinariesT fOk dOk tree
  (cleaned, generatorRun (addonsOf cleaned) m0 writeOk md5Ok)

mutual
theorem cleanTree_removeBinariesT : ∀ t : FsTree,
    cleanTree (removeBinariesT (fun _ => true) (fun _ => true) t) = true
  | .dir _ children => cleanForest_removeBinariesF children
theorem cleanForest_removeBinariesF : ∀ c : FsForest,
    cleanForest (removeBinariesF (fun _ => true) (fun _ => true) c) = true
  | .nil => rfl
  | .file f rest => by
    by_cases h : isCompiled f = true
    · simp [removeBinariesF, h, cleanForest_removeBinariesF rest]
    · simp [removeBinariesF, h, cleanForest, cleanForest_removeBinariesF rest]
  | .sub t rest => by
    by_cases h : isPycacheDir t.name = true
    · simp [removeBinariesF, h, cleanForest_removeBinariesF rest]
    · have hn : (removeBinariesT (fun _ => true) (fun _ => true) t).name = t.name := by
        cases t; rfl
      simp [removeBinariesF, h, cleanForest, hn, cleanTree_removeBinariesT t,
        cleanForest_removeBinariesF rest]
end

mutual
theorem removeBinariesT_allfail_id : ∀ t : FsTree,
    removeBinariesT (fun _ => false) (fun _ => false) t = t
  | .dir _ children => by
    simp [removeBinariesT, removeBinariesF_allfail_id children]
theorem removeBinariesF_allfail_id : ∀ c : FsForest,
    removeBinariesF (fun _ => false) (fun _ => false) c = c
  | .nil => rfl
  | .file f rest => by
    simp [removeBinariesF, removeBinariesF_allfail_id rest]
  | .sub t rest => by
    simp [removeBinariesF, removeBinariesT_allfail_id t,
      removeBinariesF_allfail_id rest]
end

/-- **C9**: at the start of every run, before discovery or any manifest
work, every file whose lowercased name ends in the characters "pyc"/"pyo"
(no dot needed — `module.epyc` matches) and every directory whose
lowercased name contains "pycache" (`my-PyCache-tmp` matches) is deleted;
with all deletions succeeding nothing matching survives anywhere; failed
deletions leave entries in place (all failing leaves the tree unchanged)
and never abort — the pipeline always continues into the merge, which sees
the cleaned tree. -/
theorem remove_binaries_first_and_clean (t : FsTree)
    (addonsOf : FsTree → List AddonSrc) (m0 : List Entry) (writeOk md5Ok : Bool)
    (fOk dOk : String → Bool) :
    cleanTree (removeBinariesT (fun _ => true) (fun _ => true) t) = true
    ∧ removeBinariesT (fun _ => false) (fun _ => false) t = t
    ∧ isCompiled "module.epyc" = true ∧ isPycacheDir "my-PyCache-tmp" = true
    ∧ isCompiled "module.py" = false
    ∧ generatorInit t fOk dOk addonsOf m0 writeOk md5Ok
      = (removeBinariesT fOk dOk t,
         generatorRun (addonsOf (removeBinariesT fOk dOk t)) m0 writeOk md5Ok) :=
  ⟨cleanTree_removeBinariesT t, removeBinariesT_allfail_id t, by decide, by decide,
   by decide, rfl⟩

/-! ## `_cleanup_old_zips` (lines 376-398) -/

/-- A directory entry of a per-add-on zips folder: its name and its
`os.path.getmtime` modification time. -/
structure ZFile where
  name : String
  mtime : Nat
deriving DecidableEq, Repr

/-- The sort key order of line 389 (`key=lambda f: os.path.getmtime(...)`). -/
def mtimeLE (a b : ZFile) : Prop := a.mtime ≤ b.mtime

instance : DecidableRel mtimeLE := fun a b => Nat.decLe a.mtime b.mtime

instance : IsTotal ZFile mtimeLE := ⟨fun a b => Nat.le_total a.mtime b.mtime⟩

instance : IsTrans ZFile mtimeLE := ⟨fun _ _ _ => Nat.le_trans⟩

/-- The `.zip` suffix test of line 388. -/
def isZipName (f : ZFile) : Bool := pyEndsWith f.name ".zip"

/-- `_cleanup_old_zips` on one per-add-on folder: the `.zip` files are
sorted by modification time ascending (Python `sorted` is stable; stable
insertion sort reproduces it), everything but the last (`zips[:-1]`) is
deleted — a file whose `os.remove` fails (`delOk` false) is only reported
and stays — and the resulting folder contents are returned. -/
def cleanupFolder (files : List ZFile) (delOk : String → Bool) : List ZFile :=
  let zips := (files.filter isZipName).insertionSort mtimeLE
  let toDelete := zips.dropLast
  files.filter fun f => !(decide (f ∈ toDelete) && delOk f.name)

theorem length_le_one_of_nodup_all_eq {α : Type} {l : List α} (hnd : l.Nodup)
    {x : α} (h : ∀ a ∈ l, a = x) : l.length ≤ 1 := by
  match l with
  | [] => simp
  | [a] => simp
  | a :: b :: rest =>
    exfalso
    rw [List.nodup_cons] at hnd
    exact hnd.1 (by rw [h a (by simp), h b (by simp)]; simp)

/-- **C5**: after cleanup with all deletions succeeding, each per-add-on
folder holds at most one `.zip`, it was present before, and its
modification time is maximal among the zips that were present; if there was
any zip, one remains; a failed deletion is non-fatal — it only leaves that
file behind, and a file that was not slated for deletion (a non-zip, or the
newest zip) survives under every failure pattern. -/
theorem cleanup_keeps_only_latest (files : List ZFile)
    (hnd : (files.map ZFile.name).Nodup) :
    ((cleanupFolder files fun _ => true).filter isZipName).length ≤ 1
    ∧ (∀ k ∈ (cleanupFolder files fun _ => true).filter isZipName,
        k ∈ files ∧ isZipName k = true
          ∧ ∀ z ∈ files, isZipName z = true → z.mtime ≤ k.mtime)
    ∧ (files.filter isZipName ≠ [] →
        (cleanupFolder files fun _ => true).filter isZipName ≠ [])
    ∧ (∀ delOk : String → Bool, ∀ f ∈ files,
        (isZipName f = false ∨
          f ∉ ((files.filter isZipName).insertionSort mtimeLE).dropLast) →
        f ∈ cleanupFolder files delOk) := by
  classical
  have hfnd : files.Nodup := hnd.of_map
  have hznd : (files.filter isZipName).Nodup := hfnd.filter _
  have hperm : ((files.filter isZipName).insertionSort mtimeLE).Perm
      (files.filter isZipName) := List.perm_insertionSort _ _
  have hSnd : ((files.filter isZipName).insertionSort mtimeLE).Nodup :=
    hperm.nodup_iff.mpr hznd
  have hsorted : List.Sorted mtimeLE ((files.filter isZipName).insertionSort mtimeLE) :=
    List.sorted_insertionSort _ _
  have hmem : ∀ (delOk : String → Bool) (f : ZFile),
      f ∈ cleanupFolder files delOk ↔
        f ∈ files ∧ ¬(f ∈ ((files.filter isZipName).insertionSort mtimeLE).dropLast
          ∧ delOk f.name = true) := by
    intro delOk f
    unfold cleanupFolder
    rw [List.mem_filter]
    constructor
    · rintro ⟨h1, h2⟩
      refine ⟨h1, fun hcon => ?_⟩
      simp [hcon.1, hcon.2] at h2
    · rintro ⟨h1, h2⟩
      refine ⟨h1, ?_⟩
      by_cases hd : f ∈ ((files.filter isZipName).insertionSort mtimeLE).dropLast
      · by_cases hk : delOk f.name = true
        · exact absurd ⟨hd, hk⟩ h2
        · simp [hd, hk]
      · simp [hd]
  have hDzip : ∀ f ∈ ((files.filter isZipName).insertionSort mtimeLE).dropLast,
      f ∈ files.filter isZipName := fun f hf =>
    hperm.mem_iff.mp (List.dropLast_sublist _ |>.mem hf)
  by_cases hS0 : (files.filter isZipName).insertionSort mtimeLE = []
  · have hz0 : files.filter isZipName = [] := by
      have := hperm
      rw [hS0] at this
      exact this.symm.eq_nil
    have hkept : ∀ k ∈ (cleanupFolder files fun _ => true).filter isZipName, False := by
      intro k hk
      rcases List.mem_filter.mp hk with ⟨hk1, hk2⟩
      have : k ∈ files.filter isZipName :=
        List.mem_filter.mpr ⟨((hmem _ k).mp hk1).1, hk2⟩
      rw [hz0] at this
      cases this
    constructor
    · cases hkd : (cleanupFolder files fun _ => true).filter isZipName with
      | nil => simp
      | cons a rest => exact absurd (hkd ▸ List.mem_cons_self a rest) (hkept a)
    refine ⟨fun k hk => absurd trivial (fun _ => hkept k hk), fun hne => absurd hz0 hne, ?_⟩
    intro delOk f hf _
    rw [hmem]
    refine ⟨hf, fun hcon => ?_⟩
    rw [hS0] at hcon
    cases hcon.1
  · have hlast := List.dropLast_append_getLast hS0
    have hLS : ((files.filter isZipName).insertionSort mtimeLE).getLast hS0
        ∈ (files.filter isZipName).insertionSort mtimeLE := List.getLast_mem hS0
    have hLzip := hperm.mem_iff.mp hLS
    have hLfiles := (List.mem_filter.mp hLzip).1
    have hLzipname := (List.mem_filter.mp hLzip).2
    have hLnotD : ((files.filter isZipName).insertionSort mtimeLE).getLast hS0
        ∉ ((files.filter isZipName).insertionSort mtimeLE).dropLast := by
      have hnd2 := hSnd
      rw [← hlast] at hnd2
      exact List.disjoint_singleton.mp (List.nodup_append.mp hnd2).2.2
    have hmax : ∀ z ∈ files.filter isZipName,
        z.mtime ≤ (((files.filter isZipName).insertionSort mtimeLE).getLast hS0).mtime := by
      intro z hz
      have hzS := hperm.mem_iff.mpr hz
      rw [← hlast] at hzS
      rcases List.mem_append.mp hzS with hd | hl
      · have hp := hsorted
        rw [← hlast] at hp
        exact (List.pairwise_append.mp hp).2.2 z hd _ (List.mem_singleton_self _)
      · rw [List.mem_singleton.mp hl]
    have hkeq : ∀ k ∈ (cleanupFolder files fun _ => true).filter isZipName,
        k = ((files.filter isZipName).insertionSort mtimeLE).getLast hS0 := by
      intro k hk
      rcases List.mem_filter.mp hk with ⟨hk1, hk2⟩
      obtain ⟨hkf, hknot⟩ := (hmem _ k).mp hk1
      have hkS : k ∈ (files.filter isZipName).insertionSort mtimeLE :=
        hperm.mem_iff.mpr (List.mem_filter.mpr ⟨hkf, hk2⟩)
      rw [← hlast] at hkS
      rcases List.mem_append.mp hkS with hd | hl
      · exact absurd ⟨hd, rfl⟩ hknot
      · exact List.mem_singleton.mp hl
    refine ⟨?_, ?_, ?_, ?_⟩
    · exact length_le_one_of_nodup_all_eq
        (((List.filter_sublist _).trans (List.filter_sublist _)).nodup hfnd) hkeq
    · intro k hk
      rw [hkeq k hk]
      exact ⟨hLfiles, hLzipname, fun z hz hzz =>
        hmax z (List.mem_filter.mpr ⟨hz, hzz⟩)⟩
    · intro _
      have hin : ((files.filter isZipName).insertionSort mtimeLE).getLast hS0
          ∈ (cleanupFolder files fun _ => true).filter isZipName :=
        List.mem_filter.mpr
          ⟨(hmem _ _).mpr ⟨hLfiles, fun hcon => hLnotD hcon.1⟩, hLzipname⟩
      exact List.ne_nil_of_mem hin
    · intro delOk f hf hcond
      rw [hmem]
      refine ⟨hf, fun hcon => ?_⟩
      rcases hcond with hnz | hnd2
      · exact absurd (List.mem_filter.mp (hDzip f hcon.1)).2 (by simp [hnz])
      · exact hnd2 hcon.1

/-- Witness for `cleanup_keeps_only_latest`: three zips and an `addon.xml`
with distinct names; with all deletions succeeding only the newest zip and
the non-zip remain. -/
theorem cleanup_keeps_only_latest_witness :
    ((cleanupFolder
        [⟨"a-1.0.zip", 5⟩, ⟨"addon.xml", 9⟩, ⟨"a-2.0.zip", 7⟩, ⟨"a-1.5.zip", 6⟩]
        fun _ => true).filter isZipName).length ≤ 1
    ∧ (∀ k ∈ (cleanupFolder
        [⟨"a-1.0.zip", 5⟩, ⟨"addon.xml", 9⟩, ⟨"a-2.0.zip", 7⟩, ⟨"a-1.5.zip", 6⟩]
        fun _ => true).filter isZipName,
        k ∈ [⟨"a-1.0.zip", 5⟩, ⟨"addon.xml", 9⟩, ⟨"a-2.0.zip", 7⟩, ⟨"a-1.5.zip", 6⟩]
          ∧ isZipName k = true
          ∧ ∀ z ∈ [ZFile.mk "a-1.0.zip" 5, ⟨"addon.xml", 9⟩, ⟨"a-2.0.zip", 7⟩,
              ⟨"a-1.5.zip", 6⟩], isZipName z = true → z.mtime ≤ k.mtime)
    ∧ ([ZFile.mk "a-1.0.zip" 5, ⟨"addon.xml", 9⟩, ⟨"a-2.0.zip", 7⟩,
        ⟨"a-1.5.zip", 6⟩].filter isZipName ≠ [] →
        (cleanupFolder
          [⟨"a-1.0.zip", 5⟩, ⟨"addon.xml", 9⟩, ⟨"a-2.0.zip", 7⟩, ⟨"a-1.5.zip", 6⟩]
          fun _ => true).filter isZipName ≠ [])
    ∧ (∀ delOk : String → Bool,
        ∀ f ∈ [ZFile.mk "a-1.0.zip" 5, ⟨"addon.xml", 9⟩, ⟨"a-2.0.zip", 7⟩,
          ⟨"a-1.5.zip", 6⟩],
        (isZipName f = false ∨
          f ∉ (([ZFile.mk "a-1.0.zip" 5, ⟨"addon.xml", 9⟩, ⟨"a-2.0.zip", 7⟩,
            ⟨"a-1.5.zip", 6⟩].filter isZipName).insertionSort mtimeLE).dropLast) →
        f ∈ cleanupFolder
          [⟨"a-1.0.zip", 5⟩, ⟨"addon.xml", 9⟩, ⟨"a-2.0.zip", 7⟩, ⟨"a-1.5.zip", 6⟩]
          delOk) :=
  cleanup_keeps_only_latest
    [⟨"a-1.0.zip", 5⟩, ⟨"addon.xml", 9⟩, ⟨"a-2.0.zip", 7⟩, ⟨"a-1.5.zip", 6⟩]
    (by decide)

/-! ## `_copy_repo_zip_to_root` (lines 400-470) -/

/-- One collected candidate of the loop at lines 418-444: a per-add-on zips
folder whose copied `addon.xml` carries an `xbmc.addon.repository`
extension and which holds at least one zip — its directory name (the id),
the newest zip's filename, and that zip's path. -/
structure Candidate where
  id : String
  zipName : String
  zipSrc : String
deriving DecidableEq, Repr

/-- Lines 446-452: `preferred = [c for c in candidates if c[0] == home_id]`
and `(preferred or candidates)[0]`; `None` when there are no candidates at
all (the early report-and-return). -/
def choosePromotion (candidates : List Candidate) (homeId : String) :
    Option Candidate :=
  if candidates.isEmpty then none
  else
    let preferred := candidates.filter fun c => c.id == homeId
    (if preferred.isEmpty then candidates else preferred).head?

/-- Lines 446-470: with no candidate, report and return, touching nothing;
otherwise every `.zip` at the git root whose removal succeeds (`delOk`) is
deleted, the chosen archive is copied there, and its name is recorded for
`_update_index_html`. -/
def promote (candidates : List Candidate) (homeId : String)
    (rootFiles : List String) (delOk : String → Bool) :
    List String × Option String :=
  match choosePromotion candidates homeId with
  | none => (rootFiles, none)
  | some c =>
    ((rootFiles.filter fun f => !(pyEndsWith f ".zip" && delOk f)) ++ [c.zipName],
     some c.zipName)

theorem filter_id_eq_singleton (homeId : String) :
    ∀ (l : List Candidate), (l.map Candidate.id).Nodup →
    ∀ c ∈ l, c.id = homeId → l.filter (fun x => x.id == homeId) = [c] := by
  intro l
  induction l with
  | nil => intro _ c hc; cases hc
  | cons x rest ih =>
    intro hnd c hc hcid
    rw [List.map_cons, List.nodup_cons] at hnd
    rcases List.mem_cons.mp hc with rfl | hmem
    · rw [List.filter_cons_of_pos (by simp [hcid])]
      have hrest : rest.filter (fun x => x.id == homeId) = [] :=
        List.filter_eq_nil_iff.mpr fun y hy => by
          simp only [beq_iff_eq]
          intro hcon
          exact hnd.1 (by rw [hcid, ← hcon]; exact List.mem_map_of_mem Candidate.id hy)
      rw [hrest]
    · have hx : (x.id == homeId) = false := by
        simp only [beq_eq_false_iff_ne, ne_eq]
        intro hcon
        exact hnd.1 (by rw [hcon, ← hcid]; exact List.mem_map_of_mem Candidate.id hmem)
      rw [List.filter_cons_of_neg (by simp [hx])]
      exact ih hnd.2 c hmem hcid

/-- **C6**: with no candidates the promotion step is a no-op on the root;
when some candidate's id equals the basename of the git root, that
candidate is chosen under every enumeration order of the candidates; and
when none matches, the first candidate found is chosen. -/
theorem promotion_prefers_home (cands : List Candidate) (homeId : String)
    (rootFiles : List String) (delOk : String → Bool)
    (hnd : (cands.map Candidate.id).Nodup) :
    (cands = [] → promote cands homeId rootFiles delOk = (rootFiles, none))
    ∧ (∀ c ∈ cands, c.id = homeId →
        ∀ l2 : List Candidate, l2.Perm cands →
          choosePromotion l2 homeId = some c)
    ∧ ((∀ c ∈ cands, c.id ≠ homeId) →
        choosePromotion cands homeId = cands.head?) := by
  refine ⟨?_, ?_, ?_⟩
  · rintro rfl
    rfl
  · intro c hc hcid l2 hl2
    have hnd2 : (l2.map Candidate.id).Nodup :=
      ((hl2.map Candidate.id).nodup_iff).mpr hnd
    have hc2 : c ∈ l2 := hl2.mem_iff.mpr hc
    have hfil := filter_id_eq_singleton homeId l2 hnd2 c hc2 hcid
    unfold choosePromotion
    rw [if_neg (by simp [List.isEmpty_iff]; exact List.ne_nil_of_mem hc2)]
    rw [hfil]
    rfl
  · intro hnone
    unfold choosePromotion
    cases cands with
    | nil => rfl
    | cons x rest =>
      rw [if_neg (by simp)]
      have hfil : (x :: rest).filter (fun c => c.id == homeId) = [] :=
        List.filter_eq_nil_iff.mpr fun y hy => by
          simp only [beq_iff_eq]
          exact hnone y hy
      rw [hfil]
      rfl

/-- Witness for `promotion_prefers_home`: two repository candidates, the
home one listed second; it is chosen in both enumeration orders, and with
an empty candidate list the root directory is untouched. -/
theorem promotion_prefers_home_witness :
    choosePromotion
      [⟨"repository.home", "h.zip", "ph"⟩, ⟨"repository.b", "b.zip", "pb"⟩]
      "repository.home" = some ⟨"repository.home", "h.zip", "ph"⟩
    ∧ choosePromotion
      [⟨"repository.b", "b.zip", "pb"⟩, ⟨"repository.home", "h.zip", "ph"⟩]
      "repository.home" = some ⟨"repository.home", "h.zip", "ph"⟩
    ∧ promote [] "repository.home" ["index.html", "old.zip"] (fun _ => true)
      = (["index.html", "old.zip"], none) := by
  have h := promotion_prefers_home
    [⟨"repository.b", "b.zip", "pb"⟩, ⟨"repository.home", "h.zip", "ph"⟩]
    "repository.home" [] (fun _ => true) (by decide)
  have h0 := promotion_prefers_home ([] : List Candidate)
    "repository.home" ["index.html", "old.zip"] (fun _ => true) (by decide)
  refine ⟨?_, ?_, h0.1 rfl⟩
  · exact h.2.1 ⟨"repository.home", "h.zip", "ph"⟩ (by decide) rfl
      [⟨"repository.home", "h.zip", "ph"⟩, ⟨"repository.b", "b.zip", "pb"⟩]
      (List.Perm.swap _ _ _)
  · exact h.2.1 ⟨"repository.home", "h.zip", "ph"⟩ (by decide) rfl
      [⟨"repository.b", "b.zip", "pb"⟩, ⟨"repository.home", "h.zip", "ph"⟩]
      (List.Perm.refl _)

/-! ## `_update_index_html` (lines 472-497) -/

/-- A rendered piece of `index.html`: free text, or an anchor element
`<a href="href">body</a>`. -/
inductive HtmlItem : Type where
  | text : String → HtmlItem
  | anchor : String → String → HtmlItem
deriving DecidableEq, Repr

/-- Whether the pattern of line 487 matches the rendered item: an anchor
whose href ends in ".zip" (on a well-formed page the href holds no quote
and the body no angle bracket, so the character classes exclude nothing
else). -/
def matchesZipAnchor : HtmlItem → Bool
  | .anchor href _ => pyEndsWith href ".zip"
  | .text _ => false

/-- `re.sub(pattern, new_link, content)` as written — without a `count`
argument it replaces EVERY match, each by the anchor of line 485 whose href
and text are both the zip name. -/
def subAllZipAnchors (z : String) (page : List HtmlItem) : List HtmlItem :=
  page.map fun it => if matchesZipAnchor it then .anchor z z else it

/-- Modelled from the spec: the substitution the claim describes, replacing
only the FIRST anchor whose href ends in the archive extension. -/
def subFirstZipAnchor (z : String) : List HtmlItem → List HtmlItem
  | [] => []
  | it :: rest =>
    if matchesZipAnchor it then .anchor z z :: rest
    else it :: subFirstZipAnchor z rest

/-- `_update_index_html`: a no-op unless an archive was promoted this run
(`_latest_repo_zip_name` is set) and `index.html` exists; otherwise the
substitution runs and the file is rewritten only when the text changed,
else "index.html already up to date." is reported.  Returns the page on
disk afterwards, whether the file was written, and whether the up-to-date
message was printed. -/
def updateIndexHtml (zipName : Option String) (page : Option (List HtmlItem)) :
    Option (List HtmlItem) × Bool × Bool :=
  match zipName, page with
  | some z, some content =>
    let updated := subAllZipAnchors z content
    if updated ≠ content then (some updated, true, false)
    else (some content, false, true)
  | _, _ => (page, false, false)

/-- The claim's "only the first match is substituted" is false on the code:
with two zip anchors on the page, `re.sub` without a count replaces both. -/
theorem index_update_not_first_only :
    updateIndexHtml (some "new.zip")
      (some [.anchor "a.zip" "a", .text "mid", .anchor "b.zip" "b"])
      = (some [.anchor "new.zip" "new.zip", .text "mid",
          .anchor "new.zip" "new.zip"], true, false)
    ∧ subFirstZipAnchor "new.zip"
        [.anchor "a.zip" "a", .text "mid", .anchor "b.zip" "b"]
      = [.anchor "new.zip" "new.zip", .text "mid", .anchor "b.zip" "b"]
    ∧ subAllZipAnchors "new.zip"
        [.anchor "a.zip" "a", .text "mid", .anchor "b.zip" "b"]
      ≠ subFirstZipAnchor "new.zip"
        [.anchor "a.zip" "a", .text "mid", .anchor "b.zip" "b"] :=
  ⟨rfl, rfl, by decide⟩

/-- **C7 amended**: when a self archive was promoted and the index page
exists, EVERY anchor whose href ends in the archive extension — not only
the first — is replaced by an anchor whose href and text are the promoted
archive's filename (when the page holds a single such link, as expected,
the two readings coincide); all other items are untouched; the file is
rewritten iff the substitution changed the text, and otherwise it is
reported as already up to date and left untouched; with no promoted archive
or no page, nothing happens at all. -/
theorem index_update_replaces_every_match (z : String) (page : List HtmlItem) :
    (∀ k : Nat, (subAllZipAnchors z page)[k]?
        = page[k]?.map fun it =>
            if matchesZipAnchor it then .anchor z z else it)
    ∧ (updateIndexHtml (some z) (some page)).1 = some (subAllZipAnchors z page)
    ∧ ((updateIndexHtml (some z) (some page)).2.1 = true
        ↔ subAllZipAnchors z page ≠ page)
    ∧ ((updateIndexHtml (some z) (some page)).2.1 = false →
        (updateIndexHtml (some z) (some page)).1 = some page
        ∧ (updateIndexHtml (some z) (some page)).2.2 = true)
    ∧ (∀ pg : Option (List HtmlItem), updateIndexHtml none pg = (pg, false, false)) := by
  refine ⟨?_, ?_, ?_, ?_, ?_⟩
  · intro k
    exact List.getElem?_map _ page k
  · simp only [updateIndexHtml]
    by_cases h : subAllZipAnchors z page ≠ page
    · rw [if_pos h]
    · rw [if_neg h]
      push_neg at h
      rw [h]
  · simp only [updateIndexHtml]
    by_cases h : subAllZipAnchors z page ≠ page
    · rw [if_pos h]
      simpa using h
    · rw [if_neg h]
      simpa using h
  · simp only [updateIndexHtml]
    by_cases h : subAllZipAnchors z page ≠ page
    · rw [if_pos h]
      intro hcon
      cases hcon
    · rw [if_neg h]
      exact fun _ => ⟨rfl, rfl⟩
  · intro pg
    cases pg <;> rfl

/-- Witness for `index_update_replaces_every_match`: a page whose only zip
anchor points at a stale archive — the link is rewritten and the file
written; applying it again reports up to date and leaves the page alone. -/
theorem index_update_replaces_every_match_witness :
    (∀ k : Nat, (subAllZipAnchors "repository.new.zip"
        [.text "head", .anchor "repository.old.zip" "repository.old.zip"])[k]?
        = ([.text "head",
            .anchor "repository.old.zip" "repository.old.zip"] :
              List HtmlItem)[k]?.map fun it =>
            if matchesZipAnchor it then .anchor "repository.new.zip"
              "repository.new.zip" else it)
    ∧ (updateIndexHtml (some "repository.new.zip")
        (some [.text "head", .anchor "repository.old.zip" "repository.old.zip"])).1
      = some (subAllZipAnchors "repository.new.zip"
          [.text "head", .anchor "repository.old.zip" "repository.old.zip"])
    ∧ ((updateIndexHtml (some "repository.new.zip")
        (some [.text "head", .anchor "repository.old.zip" "repository.old.zip"])).2.1
          = true
        ↔ subAllZipAnchors "repository.new.zip"
            [.text "head", .anchor "repository.old.zip" "repository.old.zip"]
          ≠ [.text "head", .anchor "repository.old.zip" "repository.old.zip"])
    ∧ ((updateIndexHtml (some "repository.new.zip")
        (some [.text "head", .anchor "repository.old.zip" "repository.old.zip"])).2.1
          = false →
        (updateIndexHtml (some "repository.new.zip")
          (some [.text "head",
            .anchor "repository.old.zip" "repository.old.zip"])).1
          = some [.text "head", .anchor "repository.old.zip" "repository.old.zip"]
        ∧ (updateIndexHtml (some "repository.new.zip")
            (some [.text "head",
              .anchor "repository.old.zip" "repository.old.zip"])).2.2 = true)
    ∧ (∀ pg : Option (List HtmlItem), updateIndexHtml none pg = (pg, false, false)) :=
  index_update_replaces_every_match "repository.new.zip"
    [.text "head", .anchor "repository.old.zip" "repository.old.zip"]

/-! ## `_copy_meta_files` (lines 283-312) -/

/-- An `extension` child of the declaration root: its `point` attribute and,
when present, its `assets` child — as the list of the texts of the assets
element's children (`none` for a child with no text). -/
structure Extension where
  point : Option String
  assets : Option (List (Option String))
deriving DecidableEq, Repr

/-- The asset paths collected at lines 292-299: only metadata extensions
contribute; a missing `assets` element — and equally one with zero child
elements, which is falsy for ElementTree elements, hence the `if not
assets: continue` — contributes nothing; children with missing or empty
text are dropped by `if a.text`; surviving texts pass through
`os.path.normpath`, abstracted as `normpath`. -/
def assetPaths (normpath : String → String) (exts : List Extension) :
    List String :=
  exts.foldl
    (fun acc ext =>
      if ext.point == some "xbmc.addon.metadata"
          || ext.point == some "kodi.addon.metadata" then
        match ext.assets with
        | none => acc
        | some children =>
          if children.length = 0 then acc
          else acc ++ ((children.filterMap id).filter (fun s => s != "")).map normpath
      else acc)
    []

/-- The copy loop of lines 301-312: `copyfiles` is the declaration file
plus the collected asset paths; each is copied iff its source exists under
the add-on folder — a missing source is silently skipped by the `continue`,
creating no destination and raising nothing.  Returns the copied files in
order. -/
def copyMetaFiles (existsSrc : String → Bool) (normpath : String → String)
    (exts : List Extension) : List String :=
  ("addon.xml" :: assetPaths normpath exts).filter existsSrc

/-- **C10**: every referenced file (the declaration included) whose source
is missing is silently skipped — it is not copied and nothing fails — every
existing referenced file is copied, and an `assets` element with zero
children behaves exactly like an absent one. -/
theorem meta_copy_skips_missing (existsSrc : String → Bool)
    (normpath : String → String) (exts : List Extension) :
    (∀ f ∈ ("addon.xml" :: assetPaths normpath exts), existsSrc f = false →
        f ∉ copyMetaFiles existsSrc normpath exts)
    ∧ (∀ f ∈ ("addon.xml" :: assetPaths normpath exts), existsSrc f = true →
        f ∈ copyMetaFiles existsSrc normpath exts)
    ∧ (∀ pre post : List Extension, ∀ pt : Option String,
        assetPaths normpath (pre ++ Extension.mk pt (some []) :: post)
          = assetPaths normpath (pre ++ Extension.mk pt none :: post)) := by
  refine ⟨?_, ?_, ?_⟩
  · intro f _ hmiss hcon
    have hx := (List.mem_filter.mp hcon).2
    rw [hmiss] at hx
    cases hx
  · intro f hf hex
    exact List.mem_filter.mpr ⟨hf, hex⟩
  · intro pre post pt
    unfold assetPaths
    rw [List.foldl_append, List.foldl_append, List.foldl_cons, List.foldl_cons]
    by_cases h : (pt == some "xbmc.addon.metadata"
        || pt == some "kodi.addon.metadata") = true
    · simp [h]
    · simp [h]

/-- Witness for `meta_copy_skips_missing`: one metadata extension listing an
existing and a missing asset plus empty/missing texts — the missing asset
is skipped, the existing one copied, and a childless assets element adds
nothing. -/
theorem meta_copy_skips_missing_witness :
    "icon.png" ∉ copyMetaFiles (fun f => f == "addon.xml" || f == "fanart.jpg") id
      [⟨some "xbmc.addon.metadata",
        some [some "icon.png", some "fanart.jpg", none, some ""]⟩]
    ∧ "fanart.jpg" ∈ copyMetaFiles (fun f => f == "addon.xml" || f == "fanart.jpg") id
      [⟨some "xbmc.addon.metadata",
        some [some "icon.png", some "fanart.jpg", none, some ""]⟩]
    ∧ assetPaths id ([] ++ Extension.mk (some "kodi.addon.metadata") (some []) :: [])
      = assetPaths id ([] ++ Extension.mk (some "kodi.addon.metadata") none :: []) := by
  have h := meta_copy_skips_missing (fun f => f == "addon.xml" || f == "fanart.jpg")
    id [⟨some "xbmc.addon.metadata",
      some [some "icon.png", some "fanart.jpg", none, some ""]⟩]
  exact ⟨h.1 "icon.png" (by decide) (by decide),
    h.2.1 "fanart.jpg" (by decide) (by decide),
    h.2.2 [] [] (some "kodi.addon.metadata")⟩

end RepoGen
